import Mathlib

/-!
Verification of the core decision logic and numeric algorithms of the
gst-thumbnailers repository (src/src/lib.rs), shallowly embedded in Lean.

Machine bytes are modelled as `ℕ` (values 0..255 in practice; no claim
depends on wraparound), `f32` arithmetic is idealised as exact rational
arithmetic over `ℚ`, Rust `Option`/`Result` become Lean `Option`/`Except`,
and GStreamer `ClockTime` durations are nanosecond counts in `ℕ`.
-/

namespace GstThumbnailers

/-- Embedding of Rust `slice::chunks_exact k`: the list of consecutive,
non-overlapping sublists of length `k`, dropping any shorter remainder.
Structural recursion on a fuel counter (one unit per produced chunk is
enough because each chunk consumes `k ≥ 1` elements). `k = 0` (which
panics in Rust) yields `[]`. -/
def chunksExactGo (k : ℕ) : ℕ → List ℕ → List (List ℕ)
  | 0, _ => []
  | fuel + 1, xs =>
    if 0 < k ∧ k ≤ xs.length then
      xs.take k :: chunksExactGo k fuel (xs.drop k)
    else []

def chunksExact (k : ℕ) (xs : List ℕ) : List (List ℕ) :=
  chunksExactGo k xs.length xs

/-- Embedding of `variance` (src/src/lib.rs:592-618): per-row sums over the
first `width*3` bytes of each `stride`-length chunk, arithmetic mean over
`width*3*height` values, then mean squared deviation. `f32` is idealised
as `ℚ`. -/
def variance (xs : List ℕ) (width stride height : ℕ) : ℚ :=
  let effective_stride := width * 3
  let len : ℚ := (effective_stride * height : ℕ)
  let rows := chunksExact stride xs
  let avg : ℚ :=
    (rows.map (fun line =>
      ((line.take effective_stride).map (fun (x : ℕ) => (x : ℚ))).sum)).sum / len
  let sq_diff : ℚ :=
    (rows.map (fun line =>
      ((line.take effective_stride).map (fun (x : ℕ) => ((x : ℚ) - avg) ^ 2)).sum)).sum
  sq_diff / len

/-- The retained ("effective") bytes of a frame buffer: for each full
`stride`-chunk, its first `width*3` bytes, all rows concatenated. -/
def effectiveSample (xs : List ℕ) (width stride : ℕ) : List ℕ :=
  ((chunksExact stride xs).map (fun line => line.take (width * 3))).flatten

/-- Population variance of a sample set, written from the spec's words:
"Compute the arithmetic mean, then the population variance: mean of
squared deviations from that mean." -/
def popVariance (sample : List ℕ) : ℚ :=
  let n : ℚ := sample.length
  let mean : ℚ := (sample.map (fun (x : ℕ) => (x : ℚ))).sum / n
  (sample.map (fun (x : ℕ) => ((x : ℚ) - mean) ^ 2)).sum / n

/-- Embedding of the de-striding loop (src/src/lib.rs:369-379): the output
buffer `vec![0; height * width*3]` is viewed as `height` rows of
`width*3` bytes; the zip with `chunks_exact(stride)` overwrites the first
`min height (len/stride)` of them with the row's first `width*3` bytes,
and any rows beyond the input's chunk count keep their zero fill. -/
def destride (xs : List ℕ) (width stride height : ℕ) : List ℕ :=
  let new_stride := width * 3
  let in_rows := chunksExact stride xs
  let copied := (in_rows.take height).map (fun line => line.take new_stride)
  copied.flatten ++ List.replicate ((height - in_rows.length) * new_stride) 0

/-- Rust `f32::round` (round half away from zero) followed by `as u32`,
for the non-negative values produced by the scaler: `⌊q + 1/2⌋` clamped
to `ℕ`. -/
def roundToNat (q : ℚ) : ℕ := (⌊q + 1 / 2⌋).toNat

/-- Embedding of `scale_thumbnail_dimensions` (src/src/lib.rs:437-451),
with `f32` idealised as `ℚ`. -/
def scale_thumbnail_dimensions (width height : ℚ) (thumbnail_size : ℕ) : ℕ × ℕ :=
  let t : ℚ := thumbnail_size
  let scale : ℚ :=
    if width < t ∧ height < t then 1
    else if width > height then t / width
    else t / height
  (roundToNat (width * scale), roundToNat (height * scale))

/-- The dimension-scaling policy as the spec words it: "scale T/width when
width ≥ height (and not both below T), and scale T/height otherwise". -/
def specScaledDimensions (width height : ℚ) (thumbnail_size : ℕ) : ℕ × ℕ :=
  let t : ℚ := thumbnail_size
  let scale : ℚ :=
    if width < t ∧ height < t then 1
    else if width ≥ height then t / width
    else t / height
  (roundToNat (width * scale), roundToNat (height * scale))

/-- Nanoseconds per second, the unit of GStreamer `ClockTime`. -/
def nsPerSec : ℕ := 1000000000

/-- The five sampled percentages (src/src/lib.rs:303-311): long videos
(duration > 180 s) use the first third only. -/
def seekFractions (duration : ℕ) : List ℕ :=
  if duration > 180 * nsPerSec then [10, 15, 20, 25, 30]
  else [10, 20, 30, 60, 90]

/-- Absolute seek targets: `duration.mul_div_ceil(f, 100)` is
`⌈duration * f / 100⌉`, i.e. `(duration * f + 99) / 100` in ℕ. -/
def seekTargets (duration : ℕ) : List ℕ :=
  (seekFractions duration).map (fun f => (duration * f + 99) / 100)

/-- Number of candidate frames: the preroll frame plus one pull per seek
position (src/src/lib.rs:313-342). -/
def numCandidates (duration : ℕ) : ℕ :=
  (seekTargets duration).length + 1

/-- Duration handling (src/src/lib.rs:295-300): a failed duration query is
replaced by `ClockTime::ZERO` and the request proceeds. -/
def durationOrZero (query : Option ℕ) : ℕ := query.getD 0

/-- A tag image event: `id` is an opaque identity for the sample;
`imageType` is `none` when the sample has no caps (the code skips it with
`continue`), and `some t` when caps are present with optional
`image-type` field `t` (0 = None, 1 = Undefined, 3 = FrontCover). -/
structure TagImage where
  id : ℕ
  imageType : Option (Option ℤ)
deriving DecidableEq

/-- The loop body of `get_thumbnail_from_tag` (src/src/lib.rs:406-435)
with the `cover_sample` fallback cell made an explicit accumulator. -/
def coverScan (fallback : Option TagImage) : List TagImage → Option TagImage
  | [] => fallback
  | img :: rest =>
    match img.imageType with
    | none => coverScan fallback rest
    | some t =>
      if t = some 3 then some img
      else if (t = some 1 ∨ t = none) ∧ fallback = none then
        coverScan (some img) rest
      else coverScan fallback rest

/-- Embedding of `get_thumbnail_from_tag`: scan the tag's images in order,
returning the first FrontCover immediately, else the recorded fallback. -/
def get_thumbnail_from_tag (images : List TagImage) : Option TagImage :=
  coverScan none images

def isFrontCover (img : TagImage) : Prop := img.imageType = some (some 3)

instance (img : TagImage) : Decidable (isFrontCover img) := by
  unfold isFrontCover; infer_instance

/-- Fallback eligibility: caps present, image-type Undefined (1) or absent. -/
def isFallbackEligible (img : TagImage) : Bool :=
  match img.imageType with
  | none => false
  | some t => t == some 1 || t == none

/-- Embedding of Rust `Iterator::max_by` keyed on the second component
(src/src/lib.rs:359-362): fold keeping the accumulator only when it is
strictly greater, so among equal maxima the LAST element wins. -/
def maxStep {α : Type} (acc : Option (α × ℚ)) (x : α × ℚ) : Option (α × ℚ) :=
  match acc with
  | none => some x
  | some m => if m.2 > x.2 then some m else some x

def maxBySnd {α : Type} (l : List (α × ℚ)) : Option (α × ℚ) :=
  l.foldl maxStep none

/-- Outcome of the frame-extraction phase: success with a chosen sample,
a typed `Err` propagated by `?`, or a process abort (`unwrap` panic). -/
inductive Outcome (α : Type) where
  | ok (best : α)
  | typedError
  | crash
deriving DecidableEq

/-- The `?`-propagation over the five per-seek `pull_preroll()?` calls
(src/src/lib.rs:341): the first failed pull aborts with the typed error,
otherwise all pulled frames are collected in order. -/
def pullSamples : List (Option ℕ) → Option (List ℕ)
  | [] => some []
  | none :: _ => none
  | some f :: rest => (pullSamples rest).map (fun l => f :: l)

/-- Embedding of the candidate-collection and selection phase of
`get_video_thumbnail_source` (src/src/lib.rs:313-362). `preroll` is the
result of the initial `pull_preroll()?`; `pulls` are the five per-seek
pull results (`none` = failed pull); `score` returns `none` when a
sample's buffer cannot be mapped or its caps read (`filter_map` drops
it), else its variance. Seek failures do not appear: the code only logs
them and the schedule continues unconditionally. -/
def extractionOutcome (preroll : Option ℕ) (pulls : List (Option ℕ))
    (score : ℕ → Option ℚ) : Outcome ℕ :=
  match preroll with
  | none => Outcome.typedError
  | some first =>
    match pullSamples pulls with
    | none => Outcome.typedError
    | some rest =>
      match maxBySnd ((first :: rest).filterMap
          (fun f => (score f).map (fun v => (f, v)))) with
      | none => Outcome.crash
      | some (f, _) => Outcome.ok f


/-! Theorems about the embedded operations. -/

/-- C10: when the stream duration cannot be queried it is treated as zero,
every seek target is position 0, all six candidates (preroll plus five
post-seek pulls) are taken at position 0, and the schedule still runs. -/
theorem unknown_duration_all_zero :
    durationOrZero none = 0 ∧
    seekTargets (durationOrZero none) = [0, 0, 0, 0, 0] ∧
    numCandidates (durationOrZero none) = 6 := by
  refine ⟨rfl, ?_, rfl⟩
  decide

/-- C6: the seek schedule uses a 180-second threshold selecting fractions
{10,15,20,25,30}% for long videos and {10,20,30,60,90}% otherwise; each
fraction maps to `⌈duration * f / 100⌉`; the preroll frame is always an
extra candidate, six in total; duration 200 s yields targets
{20,30,40,50,60} s and duration 60 s yields {6,12,18,36,54} s. -/
theorem seek_schedule_ok :
    (∀ d : ℕ, 180 * nsPerSec < d → seekFractions d = [10, 15, 20, 25, 30]) ∧
    (∀ d : ℕ, d ≤ 180 * nsPerSec → seekFractions d = [10, 20, 30, 60, 90]) ∧
    (∀ d : ℕ, numCandidates d = 6) ∧
    (seekTargets (200 * nsPerSec) =
      [20 * nsPerSec, 30 * nsPerSec, 40 * nsPerSec, 50 * nsPerSec, 60 * nsPerSec]) ∧
    (seekTargets (60 * nsPerSec) =
      [6 * nsPerSec, 12 * nsPerSec, 18 * nsPerSec, 36 * nsPerSec, 54 * nsPerSec]) ∧
    (∀ d : ℕ, ∀ p ∈ (seekFractions d).zip (seekTargets d),
      d * p.1 ≤ 100 * p.2 ∧ 100 * p.2 < d * p.1 + 100) := by
  refine ⟨?_, ?_, ?_, by decide, by decide, ?_⟩
  · intro d hd
    simp [seekFractions, hd]
  · intro d hd
    simp [seekFractions, Nat.not_lt.mpr hd]
  · intro d
    unfold numCandidates seekTargets seekFractions
    by_cases hd : 180 * nsPerSec < d <;> simp [hd]
  · intro d p hp
    unfold seekTargets at hp
    by_cases hd : 180 * nsPerSec < d <;>
      simp [seekFractions, hd, List.zip] at hp <;>
      rcases hp with h | h | h | h | h <;> subst h <;>
      constructor <;> omega

/-- Witness for `seek_schedule_ok` at concrete durations. -/
theorem seek_schedule_ok_witness :
    seekFractions (200 * nsPerSec) = [10, 15, 20, 25, 30] ∧
    seekFractions (60 * nsPerSec) = [10, 20, 30, 60, 90] ∧
    numCandidates 0 = 6 ∧
    (60 * nsPerSec * 10 ≤ 100 * (6 * nsPerSec) ∧
      100 * (6 * nsPerSec) < 60 * nsPerSec * 10 + 100) :=
  ⟨seek_schedule_ok.1 _ (by decide), seek_schedule_ok.2.1 _ (by decide),
   seek_schedule_ok.2.2.1 0,
   seek_schedule_ok.2.2.2.2.2 (60 * nsPerSec) (10, 6 * nsPerSec) (by decide)⟩

/-- Scanning tags that contain no FrontCover never replaces an
already-recorded fallback. -/
lemma coverScan_some (l : List TagImage) (fb : TagImage)
    (h : ∀ j ∈ l, ¬ isFrontCover j) : coverScan (some fb) l = some fb := by
  induction l with
  | nil => rfl
  | cons img rest ih =>
    have himg := h img (List.mem_cons_self _ _)
    have hrest : ∀ j ∈ rest, ¬ isFrontCover j :=
      fun j hj => h j (List.mem_cons_of_mem _ hj)
    cases htype : img.imageType with
    | none => simp [coverScan, htype, ih hrest]
    | some t =>
      have ht3 : ¬ t = some 3 := fun he => himg (by simp [isFrontCover, htype, he])
      simp [coverScan, htype, ht3, ih hrest]

/-- A FrontCover image is returned as soon as it is reached, whatever
fallback has been recorded and whatever comes after it. -/
lemma coverScan_front (l₂ : List TagImage) (img : TagImage)
    (himg : isFrontCover img) (l₁ : List TagImage)
    (h₁ : ∀ j ∈ l₁, ¬ isFrontCover j) :
    ∀ fb : Option TagImage, coverScan fb (l₁ ++ img :: l₂) = some img := by
  induction l₁ with
  | nil =>
    intro fb
    have ht : img.imageType = some (some 3) := himg
    simp [coverScan, ht]
  | cons j rest ih =>
    intro fb
    have hj := h₁ j (List.mem_cons_self _ _)
    have hrest : ∀ x ∈ rest, ¬ isFrontCover x :=
      fun x hx => h₁ x (List.mem_cons_of_mem _ hx)
    cases htype : j.imageType with
    | none => simpa [coverScan, htype] using ih hrest fb
    | some t =>
      have ht3 : ¬ t = some 3 := fun he => hj (by simp [isFrontCover, htype, he])
      by_cases hsave : (t = some 1 ∨ t = none) ∧ fb = none
      · simp [coverScan, htype, ht3, hsave, ih hrest]
      · simp [coverScan, htype, ht3, hsave, ih hrest]

/-- Without any FrontCover, the scan returns the first fallback-eligible
image, exactly as `List.find?` does. -/
lemma coverScan_none_find (l : List TagImage)
    (h : ∀ j ∈ l, ¬ isFrontCover j) :
    coverScan none l = l.find? isFallbackEligible := by
  induction l with
  | nil => rfl
  | cons img rest ih =>
    have himg := h img (List.mem_cons_self _ _)
    have hrest : ∀ j ∈ rest, ¬ isFrontCover j :=
      fun j hj => h j (List.mem_cons_of_mem _ hj)
    cases htype : img.imageType with
    | none =>
      have hf : isFallbackEligible img = false := by simp [isFallbackEligible, htype]
      rw [List.find?_cons_of_neg _ (by simp [hf])]
      simp [coverScan, htype, ih hrest]
    | some t =>
      have ht3 : ¬ t = some 3 := fun he => himg (by simp [isFrontCover, htype, he])
      by_cases hel : t = some 1 ∨ t = none
      · have hf : isFallbackEligible img = true := by
          rcases hel with he | he <;> simp [isFallbackEligible, htype, he]
        rw [List.find?_cons_of_pos _ (by simp [hf])]
        simp [coverScan, htype, ht3, hel, coverScan_some rest img hrest]
      · have hf : isFallbackEligible img = false := by
          push_neg at hel
          simp [isFallbackEligible, htype, hel.1, hel.2]
        rw [List.find?_cons_of_neg _ (by simp [hf])]
        simp [coverScan, htype, ht3, hel, ih hrest]

/-- C7: cover-art selection returns the first FrontCover image
immediately (later tags are never inspected); with no FrontCover it
returns the first image whose classification is Undefined or absent, and
otherwise none; [Undefined, FrontCover, Other] yields the FrontCover,
[Undefined, Other] yields the Undefined image, [] yields none. -/
theorem cover_art_selector_ok :
    (∀ (l₁ l₂ : List TagImage) (img : TagImage),
      (∀ j ∈ l₁, ¬ isFrontCover j) → isFrontCover img →
      get_thumbnail_from_tag (l₁ ++ img :: l₂) = some img) ∧
    (∀ l : List TagImage, (∀ j ∈ l, ¬ isFrontCover j) →
      get_thumbnail_from_tag l = l.find? isFallbackEligible) ∧
    get_thumbnail_from_tag
      [⟨0, some (some 1)⟩, ⟨1, some (some 3)⟩, ⟨2, some (some 2)⟩] =
      some ⟨1, some (some 3)⟩ ∧
    get_thumbnail_from_tag [⟨0, some (some 1)⟩, ⟨1, some (some 2)⟩] =
      some ⟨0, some (some 1)⟩ ∧
    get_thumbnail_from_tag [] = none := by
  refine ⟨?_, ?_, by decide, by decide, rfl⟩
  · intro l₁ l₂ img h₁ himg
    exact coverScan_front l₂ img himg l₁ h₁ none
  · intro l h
    exact coverScan_none_find l h

/-- Witness for `cover_art_selector_ok` at concrete tag lists. -/
theorem cover_art_selector_ok_witness :
    get_thumbnail_from_tag
      [⟨5, some (some 2)⟩, ⟨6, some (some 3)⟩, ⟨7, none⟩] =
      some ⟨6, some (some 3)⟩ ∧
    get_thumbnail_from_tag [⟨8, some none⟩, ⟨9, some (some 0)⟩] =
      List.find? isFallbackEligible [⟨8, some none⟩, ⟨9, some (some 0)⟩] :=
  ⟨cover_art_selector_ok.1 [⟨5, some (some 2)⟩] [⟨7, none⟩] ⟨6, some (some 3)⟩
      (by decide) (by decide),
   cover_art_selector_ok.2.1 [⟨8, some none⟩, ⟨9, some (some 0)⟩] (by decide)⟩

/-- A strictly greater accumulator survives the rest of the fold. -/
lemma foldl_maxStep_keep {α : Type} (l : List (α × ℚ)) (m : α × ℚ)
    (h : ∀ q ∈ l, q.2 < m.2) : l.foldl maxStep (some m) = some m := by
  induction l with
  | nil => rfl
  | cons x rest ih =>
    have hx := h x (List.mem_cons_self _ _)
    have hs : maxStep (some m) x = some m := by simp [maxStep, hx]
    rw [List.foldl_cons, hs]
    exact ih (fun q hq => h q (List.mem_cons_of_mem _ hq))

/-- Folding over pairs whose scores are all at most `c` keeps the
accumulator's score at most `c` (or still empty). -/
lemma foldl_maxStep_le {α : Type} (c : ℚ) :
    ∀ l : List (α × ℚ), (∀ q ∈ l, q.2 ≤ c) →
    ∀ acc : Option (α × ℚ), (acc = none ∨ ∃ m, acc = some m ∧ m.2 ≤ c) →
      (List.foldl maxStep acc l = none ∨
        ∃ m, List.foldl maxStep acc l = some m ∧ m.2 ≤ c)
  | [], _, acc, hacc => by simpa using hacc
  | x :: rest, h, acc, hacc => by
    have hx := h x (List.mem_cons_self _ _)
    have hrest : ∀ q ∈ rest, q.2 ≤ c := fun q hq => h q (List.mem_cons_of_mem _ hq)
    rw [List.foldl_cons]
    refine foldl_maxStep_le c rest hrest (maxStep acc x) ?_
    rcases hacc with h0 | ⟨m, hm, hmc⟩
    · subst h0; exact Or.inr ⟨x, rfl, hx⟩
    · subst hm
      by_cases hgt : m.2 > x.2
      · exact Or.inr ⟨m, by simp [maxStep, hgt], hmc⟩
      · exact Or.inr ⟨x, by simp [maxStep, hgt], hx⟩

/-- C1 (amended): the best-frame selection picks a pair with the maximal
score, and among several pairs with exactly equal maximal scores the
LAST such pair in the input's iteration order is selected (Rust
`Iterator::max_by` keeps the later element on ties); the choice is a
pure function of the ordered input, hence identical on repeated runs. -/
theorem best_frame_selection_last_max (l₁ l₂ : List (ℕ × ℚ)) (p : ℕ × ℚ)
    (h₁ : ∀ q ∈ l₁, q.2 ≤ p.2) (h₂ : ∀ q ∈ l₂, q.2 < p.2) :
    maxBySnd (l₁ ++ p :: l₂) = some p ∧
    ∀ q ∈ l₁ ++ p :: l₂, q.2 ≤ p.2 := by
  constructor
  · unfold maxBySnd
    rw [List.foldl_append, List.foldl_cons]
    have hacc := foldl_maxStep_le p.2 l₁ h₁ none (Or.inl rfl)
    have hstep : maxStep (List.foldl maxStep none l₁) p = some p := by
      rcases hacc with h0 | ⟨m, hm, hmc⟩
      · rw [h0]; rfl
      · rw [hm]; simp [maxStep, not_lt.mpr hmc]
    rw [hstep]
    exact foldl_maxStep_keep l₂ p h₂
  · intro q hq
    rcases List.mem_append.mp hq with hq | hq
    · exact h₁ q hq
    · rcases List.mem_cons.mp hq with hq | hq
      · exact le_of_eq (congrArg Prod.snd hq)
      · exact le_of_lt (h₂ q hq)

/-- Witness for `best_frame_selection_last_max`: on scores [5, 9, 9, 2]
the candidate at index 2 is selected. -/
theorem best_frame_selection_last_max_witness :
    maxBySnd [((0 : ℕ), (5 : ℚ)), (1, 9), (2, 9), (3, 2)] = some (2, 9) :=
  (best_frame_selection_last_max [(0, 5), (1, 9)] [(3, 2)] (2, 9)
    (by decide) (by decide)).1

/-- Counterexample to C1 as stated: on scores [5, 9, 9, 2] the selection
does NOT return the first maximal pair (index 1); it returns index 2. -/
theorem best_frame_selection_first_max_refuted :
    maxBySnd [((0 : ℕ), (5 : ℚ)), (1, 9), (2, 9), (3, 2)] ≠ some (1, 9) ∧
    maxBySnd [((0 : ℕ), (5 : ℚ)), (1, 9), (2, 9), (3, 2)] = some (2, 9) := by
  decide

/-- A fold of `maxStep` from a non-empty accumulator never returns
`none`. -/
lemma foldl_maxStep_some {α : Type} : ∀ (l : List (α × ℚ)) (m : α × ℚ),
    ∃ r, List.foldl maxStep (some m) l = some r
  | [], m => ⟨m, rfl⟩
  | x :: rest, m => by
    rw [List.foldl_cons]
    have hs : ∃ r, maxStep (some m) x = some r := by
      unfold maxStep
      by_cases h : m.2 > x.2 <;> simp [h]
    obtain ⟨r, hr⟩ := hs
    rw [hr]
    exact foldl_maxStep_some rest r

/-- The fold result `maxBySnd` is `none` exactly on the empty list. -/
lemma maxBySnd_eq_none_iff {α : Type} (l : List (α × ℚ)) :
    maxBySnd l = none ↔ l = [] := by
  cases l with
  | nil => simp [maxBySnd]
  | cons x rest =>
    simp only [maxBySnd, List.foldl_cons]
    have hx : maxStep (none : Option (α × ℚ)) x = some x := rfl
    rw [hx]
    obtain ⟨r, hr⟩ := foldl_maxStep_some rest x
    simp [hr]

/-- The fold of `maxStep` only ever returns the accumulator or a list
element. -/
lemma foldl_maxStep_mem {α : Type} :
    ∀ (l : List (α × ℚ)) (acc : Option (α × ℚ)) (p : α × ℚ),
    List.foldl maxStep acc l = some p → acc = some p ∨ p ∈ l
  | [], _, _, h => Or.inl h
  | x :: rest, acc, p, h => by
    rw [List.foldl_cons] at h
    rcases foldl_maxStep_mem rest (maxStep acc x) p h with h1 | h1
    · cases acc with
      | none =>
        have hxp : x = p := Option.some.inj h1
        exact Or.inr (by rw [← hxp]; exact List.mem_cons_self x rest)
      | some m =>
        by_cases hgt : m.2 > x.2
        · simp only [maxStep, if_pos hgt] at h1
          exact Or.inl h1
        · simp only [maxStep, if_neg hgt] at h1
          have hxp : x = p := Option.some.inj h1
          exact Or.inr (by rw [← hxp]; exact List.mem_cons_self x rest)
    · exact Or.inr (List.mem_cons_of_mem x h1)

/-- The pair returned by `maxBySnd` is an element of the input. -/
lemma maxBySnd_memb {α : Type} (l : List (α × ℚ)) (p : α × ℚ)
    (h : maxBySnd l = some p) : p ∈ l := by
  rcases foldl_maxStep_mem l none p h with h1 | h1
  · cases h1
  · exact h1

/-- The `?`-fold over the pulls fails exactly when some pull failed. -/
lemma pullSamples_eq_none_iff : ∀ pulls : List (Option ℕ),
    pullSamples pulls = none ↔ none ∈ pulls
  | [] => by simp [pullSamples]
  | none :: rest => by simp [pullSamples]
  | some f :: rest => by
    simp [pullSamples, Option.map_eq_none', pullSamples_eq_none_iff rest]

/-- C2 (amended): a failed seek never affects the outcome (the code only
logs it and the schedule continues unconditionally); frames whose
buffers cannot be read are dropped before scoring; but a failed frame
pull — the preroll or any per-seek `pull_preroll()?` — aborts the whole
request with a typed error even when other usable candidates remain,
and when all pulls succeed yet zero candidates are scorable the
selection aborts on `unwrap` (a panic, not a typed `ExtractionFailed`
error). -/
theorem extraction_error_policy (preroll : Option ℕ) (pulls : List (Option ℕ))
    (score : ℕ → Option ℚ) :
    (extractionOutcome preroll pulls score = Outcome.typedError ↔
      preroll = none ∨ none ∈ pulls) ∧
    (extractionOutcome preroll pulls score = Outcome.crash ↔
      ∃ first rest, preroll = some first ∧ pullSamples pulls = some rest ∧
        ∀ f ∈ first :: rest, score f = none) ∧
    ((∃ f, extractionOutcome preroll pulls score = Outcome.ok f) ↔
      ∃ first rest, preroll = some first ∧ pullSamples pulls = some rest ∧
        ∃ f ∈ first :: rest, (score f).isSome) := by
  cases preroll with
  | none => simp [extractionOutcome]
  | some first =>
    cases hp : pullSamples pulls with
    | none =>
      have hmem : none ∈ pulls := (pullSamples_eq_none_iff pulls).mp hp
      simp [extractionOutcome, hp, hmem]
    | some rest =>
      have hnmem : ¬ none ∈ pulls := fun hmem => by
        rw [(pullSamples_eq_none_iff pulls).mpr hmem] at hp
        cases hp
      cases hm : maxBySnd ((first :: rest).filterMap
          (fun f => (score f).map (fun v => (f, v)))) with
      | none =>
        have hnil := (maxBySnd_eq_none_iff _).mp hm
        rw [List.filterMap_eq_nil_iff] at hnil
        simp only [Option.map_eq_none'] at hnil
        refine ⟨?_, ?_, ?_⟩
        · simp [extractionOutcome, hp, hm, hnmem]
        · constructor
          · intro _
            exact ⟨first, rest, rfl, rfl, hnil⟩
          · intro _
            simp [extractionOutcome, hp, hm]
        · simp only [extractionOutcome, hp, hm]
          constructor
          · rintro ⟨f, hf⟩; cases hf
          · rintro ⟨f1, r1, hf1, hr1, g, hg, hgs⟩
            cases hf1; cases hr1
            rw [hnil g hg] at hgs
            cases hgs
      | some p =>
        obtain ⟨f, v⟩ := p
        have hmemf := maxBySnd_memb _ _ hm
        obtain ⟨g, hg, hgs⟩ := List.mem_filterMap.mp hmemf
        rw [Option.map_eq_some'] at hgs
        obtain ⟨w, hw, hfw⟩ := hgs
        refine ⟨?_, ?_, ?_⟩
        · simp [extractionOutcome, hp, hm, hnmem]
        · simp only [extractionOutcome, hp, hm]
          constructor
          · intro h; cases h
          · rintro ⟨f1, r1, hf1, hr1, hall⟩
            cases hf1; cases hr1
            rw [hall g hg] at hw
            cases hw
        · simp only [extractionOutcome, hp, hm]
          constructor
          · intro _
            exact ⟨first, rest, rfl, rfl, g, hg, by rw [hw]; rfl⟩
          · intro _; exact ⟨f, rfl⟩

/-- Witness for `extraction_error_policy` on a concrete run: with all
six pulls succeeding and every frame scorable, the request succeeds. -/
theorem extraction_error_policy_witness :
    ∃ f, extractionOutcome (some 0) [some 1, some 2, some 3, some 4, some 5]
      (fun n => some (n : ℚ)) = Outcome.ok f :=
  ((extraction_error_policy (some 0) [some 1, some 2, some 3, some 4, some 5]
      (fun n => some (n : ℚ))).2.2).mpr
    ⟨0, [1, 2, 3, 4, 5], rfl, rfl, 0, by decide, rfl⟩

/-- Counterexample to C2 as stated: the second candidate's pull fails
while the preroll and four other candidates are usable, yet the whole
request aborts with the typed error instead of skipping the candidate
and selecting among the rest. -/
theorem extraction_skip_refuted :
    extractionOutcome (some 0) [none, some 1, some 2, some 3, some 4]
      (fun n => some (n : ℚ)) = Outcome.typedError ∧
    ∀ f : ℕ, (Outcome.typedError : Outcome ℕ) ≠ Outcome.ok f := by
  exact ⟨rfl, fun f h => Outcome.noConfusion h⟩

/-- Rounding is monotone. -/
lemma roundToNat_mono {a b : ℚ} (h : a ≤ b) : roundToNat a ≤ roundToNat b :=
  Int.toNat_le_toNat (Int.floor_le_floor (by linarith))

/-- The floor of one half is zero. -/
lemma floor_half : ⌊(1 / 2 : ℚ)⌋ = 0 := by norm_num

/-- Rounding a natural number returns it unchanged. -/
lemma roundToNat_natCast (n : ℕ) : roundToNat (n : ℚ) = n := by
  unfold roundToNat
  rw [add_comm, Int.floor_add_nat, floor_half, zero_add, Int.toNat_natCast]

/-- A value at most `n` rounds to at most `n`: `⌊a + 1/2⌋ ≤ ⌊n + 1/2⌋ = n`. -/
lemma roundToNat_le_nat {a : ℚ} {n : ℕ} (h : a ≤ n) : roundToNat a ≤ n := by
  have := roundToNat_mono h
  rwa [roundToNat_natCast] at this

/-- C5: the dimension scaler computes exactly the spec's policy (scale 1
below the max on both axes, else `T/width` when `width ≥ height`, else
`T/height`, each dimension rounded ties-up), with (3840,2160,256) ↦
(256,144), (100,50,256) ↦ (100,50), and (256,256,256) ↦ (256,256). The
code tests `width > height` where the spec says `width ≥ height`, but at
`width = height` both scales are the same value `T/width = T/height`, so
the functions agree everywhere. -/
theorem dimension_scaler_matches_spec :
    (∀ (w h : ℚ) (t : ℕ),
      scale_thumbnail_dimensions w h t = specScaledDimensions w h t) ∧
    scale_thumbnail_dimensions 3840 2160 256 = (256, 144) ∧
    scale_thumbnail_dimensions 100 50 256 = (100, 50) ∧
    scale_thumbnail_dimensions 256 256 256 = (256, 256) := by
  refine ⟨?_, by norm_num [scale_thumbnail_dimensions, roundToNat]; decide,
    by norm_num [scale_thumbnail_dimensions, roundToNat]; decide,
    by norm_num [scale_thumbnail_dimensions, roundToNat]; decide⟩
  intro w h t
  unfold scale_thumbnail_dimensions specScaledDimensions
  by_cases h1 : w < (t : ℚ) ∧ h < (t : ℚ)
  · simp [h1]
  · rcases lt_trichotomy w h with hlt | heq | hgt
    · simp [h1, not_lt.mpr (le_of_lt hlt), not_le.mpr hlt]
    · subst heq
      simp [h1, lt_irrefl, le_refl]
    · simp [h1, hgt, le_of_lt hgt]

/-- C8: the scaled dimensions never exceed the requested max on either
axis and never exceed the (rounded) source dimensions — no upscaling. -/
theorem dimension_scaler_bounds (w h : ℚ) (t : ℕ)
    (hw : 0 ≤ w) (hh : 0 ≤ h) (ht : 0 < t) :
    (scale_thumbnail_dimensions w h t).1 ≤ t ∧
    (scale_thumbnail_dimensions w h t).2 ≤ t ∧
    (scale_thumbnail_dimensions w h t).1 ≤ roundToNat w ∧
    (scale_thumbnail_dimensions w h t).2 ≤ roundToNat h := by
  have htq : (0 : ℚ) < t := by exact_mod_cast ht
  unfold scale_thumbnail_dimensions
  by_cases h1 : w < (t : ℚ) ∧ h < (t : ℚ)
  · simp only [if_pos h1, mul_one]
    exact ⟨roundToNat_le_nat (le_of_lt h1.1), roundToNat_le_nat (le_of_lt h1.2),
      le_refl _, le_refl _⟩
  · by_cases h2 : w > h
    · simp only [if_neg h1, if_pos h2]
      have hwt : (t : ℚ) ≤ w := by
        by_contra hc
        push_neg at hc
        exact h1 ⟨hc, lt_trans h2 hc⟩
      have hw0 : 0 < w := lt_of_lt_of_le htq hwt
      have hscale : w * ((t : ℚ) / w) = t := by field_simp
      have hs1 : (0 : ℚ) ≤ (t : ℚ) / w := le_of_lt (div_pos htq hw0)
      have hs2 : (t : ℚ) / w ≤ 1 := (div_le_one hw0).mpr hwt
      refine ⟨?_, ?_, ?_, ?_⟩
      · rw [hscale, roundToNat_natCast]
      · refine roundToNat_le_nat ?_
        calc h * ((t : ℚ) / w) ≤ w * ((t : ℚ) / w) :=
              mul_le_mul_of_nonneg_right (le_of_lt h2) hs1
          _ = t := hscale
      · refine roundToNat_mono ?_
        rw [hscale]; exact hwt
      · exact roundToNat_mono (mul_le_of_le_one_right hh hs2)
    · simp only [if_neg h1, if_neg h2]
      push_neg at h2
      have hht : (t : ℚ) ≤ h := by
        by_contra hc
        push_neg at hc
        exact h1 ⟨lt_of_le_of_lt h2 hc, hc⟩
      have hh0 : 0 < h := lt_of_lt_of_le htq hht
      have hscale : h * ((t : ℚ) / h) = t := by field_simp
      have hs1 : (0 : ℚ) ≤ (t : ℚ) / h := le_of_lt (div_pos htq hh0)
      have hs2 : (t : ℚ) / h ≤ 1 := (div_le_one hh0).mpr hht
      refine ⟨?_, ?_, ?_, ?_⟩
      · refine roundToNat_le_nat ?_
        calc w * ((t : ℚ) / h) ≤ h * ((t : ℚ) / h) :=
              mul_le_mul_of_nonneg_right h2 hs1
          _ = t := hscale
      · rw [hscale, roundToNat_natCast]
      · exact roundToNat_mono (mul_le_of_le_one_right hw hs2)
      · refine roundToNat_mono ?_
        rw [hscale]; exact hht

/-- Witness for `dimension_scaler_bounds` at the (3840, 2160, 256)
example. -/
theorem dimension_scaler_bounds_witness :
    (scale_thumbnail_dimensions 3840 2160 256).1 ≤ 256 ∧
    (scale_thumbnail_dimensions 3840 2160 256).2 ≤ 256 ∧
    (scale_thumbnail_dimensions 3840 2160 256).1 ≤ roundToNat 3840 ∧
    (scale_thumbnail_dimensions 3840 2160 256).2 ≤ roundToNat 2160 :=
  dimension_scaler_bounds 3840 2160 256 (by norm_num) (by norm_num) (by norm_num)

/-- The fuel argument of `chunksExactGo` is irrelevant once it is at
least the list length. -/
lemma chunksExactGo_fuel_eq (k : ℕ) :
    ∀ (f1 f2 : ℕ) (xs : List ℕ), xs.length ≤ f1 → xs.length ≤ f2 →
      chunksExactGo k f1 xs = chunksExactGo k f2 xs
  | 0, 0, _, _, _ => rfl
  | 0, _ + 1, xs, h1, _ => by
    have hxs : xs = [] := List.length_eq_zero.mp (Nat.le_zero.mp h1)
    subst hxs
    have hc : ¬(0 < k ∧ k ≤ ([] : List ℕ).length) := by
      rintro ⟨hk, hk0⟩
      simp at hk0
      omega
    show chunksExactGo k 0 [] = chunksExactGo k (_ + 1) []
    unfold chunksExactGo
    rw [if_neg hc]
  | _ + 1, 0, xs, _, h2 => by
    have hxs : xs = [] := List.length_eq_zero.mp (Nat.le_zero.mp h2)
    subst hxs
    have hc : ¬(0 < k ∧ k ≤ ([] : List ℕ).length) := by
      rintro ⟨hk, hk0⟩
      simp at hk0
      omega
    show chunksExactGo k (_ + 1) [] = chunksExactGo k 0 []
    unfold chunksExactGo
    rw [if_neg hc]
  | a + 1, b + 1, xs, h1, h2 => by
    show chunksExactGo k (a + 1) xs = chunksExactGo k (b + 1) xs
    unfold chunksExactGo
    by_cases hc : 0 < k ∧ k ≤ xs.length
    · rw [if_pos hc, if_pos hc]
      have hd : (xs.drop k).length ≤ a := by
        rw [List.length_drop]
        omega
      have hd2 : (xs.drop k).length ≤ b := by
        rw [List.length_drop]
        omega
      rw [chunksExactGo_fuel_eq k a b (xs.drop k) hd hd2]
    · rw [if_neg hc, if_neg hc]

/-- Unfolding step for `chunksExact` on a list long enough to hold one
chunk. -/
lemma chunksExact_cons (k : ℕ) (xs : List ℕ) (hk : 0 < k)
    (hlen : k ≤ xs.length) :
    chunksExact k xs = xs.take k :: chunksExact k (xs.drop k) := by
  unfold chunksExact
  obtain ⟨n, hn⟩ : ∃ n, xs.length = n + 1 := ⟨xs.length - 1, by omega⟩
  rw [hn]
  show (if 0 < k ∧ k ≤ xs.length then
      xs.take k :: chunksExactGo k n (xs.drop k) else []) = _
  rw [if_pos ⟨hk, hlen⟩]
  congr 1
  refine chunksExactGo_fuel_eq k n (xs.drop k).length (xs.drop k) ?_ (le_refl _)
  rw [List.length_drop]
  omega

/-- On a buffer of exactly `h` rows of `s` bytes, `chunksExact` yields
precisely the `h` rows. -/
lemma chunksExact_of_length (s : ℕ) (hs : 0 < s) :
    ∀ (h : ℕ) (xs : List ℕ), xs.length = h * s →
      chunksExact s xs = (List.range h).map (fun r => (xs.drop (r * s)).take s)
  | 0, xs, hlen => by
    have hxs : xs = [] := List.length_eq_zero.mp (by omega)
    subst hxs
    rfl
  | h + 1, xs, hlen => by
    have hlen' : xs.length = h * s + s := by rw [hlen, Nat.succ_mul]
    have hle : s ≤ xs.length := by omega
    rw [chunksExact_cons s xs hs hle]
    have hdlen : (xs.drop s).length = h * s := by
      rw [List.length_drop]
      omega
    rw [chunksExact_of_length s hs h (xs.drop s) hdlen]
    rw [List.range_succ_eq_map, List.map_cons, List.map_map]
    congr 1
    · simp
    · apply List.map_congr_left
      intro r _
      show ((xs.drop s).drop (r * s)).take s = (xs.drop (Nat.succ r * s)).take s
      rw [List.drop_drop]
      congr 2
      rw [Nat.succ_mul]
      omega

/-- Flattening uniform-length rows multiplies the counts. -/
lemma flatten_length_of_uniform (L : List (List ℕ)) (k : ℕ)
    (h : ∀ l ∈ L, l.length = k) : L.flatten.length = L.length * k := by
  induction L with
  | nil => simp
  | cons l L' ih =>
    have hl := h l (List.mem_cons_self _ _)
    have hL' : ∀ x ∈ L', x.length = k := fun x hx => h x (List.mem_cons_of_mem _ hx)
    rw [List.flatten_cons, List.length_append, hl, ih hL', List.length_cons,
      Nat.succ_mul]
    omega

/-- Row `r` of a flattened list of uniform `k`-length rows is the `r`-th
row. -/
lemma flatten_drop_take (k : ℕ) :
    ∀ (L : List (List ℕ)), (∀ l ∈ L, l.length = k) →
    ∀ r, r < L.length → ((L.flatten).drop (r * k)).take k = L.getD r []
  | [], _, r, hr => absurd hr (by simp)
  | l :: L', h, 0, _ => by
    have hl := h l (List.mem_cons_self _ _)
    rw [List.getD_cons_zero, Nat.zero_mul, List.drop_zero, List.flatten_cons,
      ← hl, List.take_left]
  | l :: L', h, r + 1, hr => by
    have hl := h l (List.mem_cons_self _ _)
    have hL' : ∀ x ∈ L', x.length = k := fun x hx => h x (List.mem_cons_of_mem _ hx)
    have hr' : r < L'.length := by
      rw [List.length_cons] at hr
      omega
    rw [List.getD_cons_succ, List.flatten_cons]
    have hsplit : (r + 1) * k = l.length + r * k := by
      rw [hl, Nat.succ_mul]
      omega
    rw [hsplit, List.drop_append]
    exact flatten_drop_take k L' hL' r hr'

/-- Sums over a flattened list equal the nested per-row sums. -/
lemma sum_map_flatten (L : List (List ℕ)) (g : ℕ → ℚ) :
    (L.flatten.map g).sum = (L.map (fun l => (l.map g).sum)).sum := by
  rw [List.map_flatten, List.sum_flatten, List.map_map]
  rfl

/-- The effective sample laid out row by row. -/
lemma effectiveSample_eq (xs : List ℕ) (w s h : ℕ) (hs : 0 < s)
    (hws : w * 3 ≤ s) (hlen : xs.length = h * s) :
    effectiveSample xs w s =
      ((List.range h).map (fun r => (xs.drop (r * s)).take (w * 3))).flatten := by
  unfold effectiveSample
  rw [chunksExact_of_length s hs h xs hlen, List.map_map]
  congr 1
  apply List.map_congr_left
  intro r _
  show ((xs.drop (r * s)).take s).take (w * 3) = (xs.drop (r * s)).take (w * 3)
  rw [List.take_take, min_eq_left hws]

/-- Each effective row has exactly `w * 3` bytes. -/
lemma rows_uniform (xs : List ℕ) (w s h : ℕ) (hws : w * 3 ≤ s)
    (hlen : xs.length = h * s) :
    ∀ l ∈ (List.range h).map (fun r => (xs.drop (r * s)).take (w * 3)),
      l.length = w * 3 := by
  intro l hl
  rw [List.mem_map] at hl
  obtain ⟨r, hr, hrl⟩ := hl
  rw [List.mem_range] at hr
  rw [← hrl, List.length_take, List.length_drop, hlen]
  have h2 : (r + 1) * s ≤ h * s := Nat.mul_le_mul_right s hr
  rw [Nat.succ_mul] at h2
  omega

/-- The effective sample of an `h * s` buffer has `h * (w * 3)` bytes. -/
lemma effectiveSample_length (xs : List ℕ) (w s h : ℕ) (hs : 0 < s)
    (hws : w * 3 ≤ s) (hlen : xs.length = h * s) :
    (effectiveSample xs w s).length = h * (w * 3) := by
  rw [effectiveSample_eq xs w s h hs hws hlen,
    flatten_length_of_uniform _ (w * 3) (rows_uniform xs w s h hws hlen)]
  simp

/-- The code's variance equals the population variance of the retained
byte sample: the nested per-row sums telescope into flat sums over the
effective sample, and the two length normalisers agree. -/
lemma variance_eq_popVariance (xs : List ℕ) (w s h : ℕ)
    (hw : 0 < w) (hws : w * 3 ≤ s) (hlen : xs.length = h * s) :
    variance xs w s h = popVariance (effectiveSample xs w s) := by
  have hs : 0 < s := by omega
  have hnest : ∀ g : ℕ → ℚ,
      ((chunksExact s xs).map (fun line => ((line.take (w * 3)).map g).sum)).sum =
      ((effectiveSample xs w s).map g).sum := by
    intro g
    unfold effectiveSample
    rw [sum_map_flatten, List.map_map]
    rfl
  have hcast : ((w * 3) * h : ℕ) = (effectiveSample xs w s).length := by
    rw [effectiveSample_length xs w s h hs hws hlen, Nat.mul_comm]
  simp only [variance, popVariance]
  rw [hnest, hnest, hcast]

/-- A constant sample has population variance zero. -/
lemma popVariance_const (n c : ℕ) (hn : 0 < n) :
    popVariance (List.replicate n c) = 0 := by
  have hn' : (n : ℚ) ≠ 0 := Nat.cast_ne_zero.mpr (by omega)
  simp only [popVariance, List.map_replicate, List.sum_replicate,
    List.length_replicate, nsmul_eq_mul]
  rw [mul_div_cancel_left₀ (c : ℚ) hn']
  rw [sub_self]
  norm_num

/-- Flattening replicated rows is one big replicate. -/
lemma flatten_replicate (n k c : ℕ) :
    (List.replicate n (List.replicate k c)).flatten = List.replicate (n * k) c := by
  induction n with
  | zero => simp
  | succ m ih =>
    rw [List.replicate_succ, List.flatten_cons, ih, Nat.succ_mul, Nat.add_comm,
      List.replicate_add]

/-- The effective sample of a constant buffer is constant. -/
lemma effectiveSample_replicate (w s h : ℕ) (hs : 0 < s) (hws : w * 3 ≤ s) :
    effectiveSample (List.replicate (h * s) 128) w s =
      List.replicate (h * (w * 3)) 128 := by
  rw [effectiveSample_eq _ w s h hs hws (by simp)]
  have hrow : ∀ r ∈ List.range h,
      ((List.replicate (h * s) (128 : ℕ)).drop (r * s)).take (w * 3) =
        List.replicate (w * 3) (128 : ℕ) := by
    intro r hr
    rw [List.mem_range] at hr
    rw [List.drop_replicate, List.take_replicate]
    congr 1
    have h2 : (r + 1) * s ≤ h * s := Nat.mul_le_mul_right s hr
    rw [Nat.succ_mul] at h2
    omega
  rw [List.map_congr_left hrow, List.map_const', List.length_range,
    flatten_replicate]

/-- C3: the variance score is the population variance (mean of squared
deviations from the arithmetic mean) of the effective bytes — the first
`width*3` bytes of each of the `height` rows taken as one sample set; a
buffer whose every effective byte is 128 scores exactly 0 for any
width/height/stride combination, and the alternating 0/255 buffer scores
exactly 16256.25. -/
theorem variance_spec_ok :
    (∀ (xs : List ℕ) (w s h : ℕ), 0 < w → w * 3 ≤ s → xs.length = h * s →
      variance xs w s h = popVariance (effectiveSample xs w s)) ∧
    (∀ (w s h : ℕ), 0 < w → 0 < h → w * 3 ≤ s →
      variance (List.replicate (h * s) 128) w s h = 0) ∧
    variance [0, 255, 0, 255, 0, 255] 2 6 1 = 16256.25 := by
  refine ⟨variance_eq_popVariance, ?_, ?_⟩
  · intro w s h hw hh hws
    have hs : 0 < s := by omega
    rw [variance_eq_popVariance _ w s h hw hws (by simp),
      effectiveSample_replicate w s h hs hws]
    exact popVariance_const _ _ (by positivity)
  · show variance [0, 255, 0, 255, 0, 255] 2 6 1 = 16256.25
    have h1 : chunksExact 6 [0, 255, 0, 255, 0, 255] = [[0, 255, 0, 255, 0, 255]] := by
      decide
    have h2 : List.take 6 ([0, 255, 0, 255, 0, 255] : List ℕ) =
        [0, 255, 0, 255, 0, 255] := by
      decide
    simp only [variance, h1]
    norm_num [h2, List.map_cons, List.map_nil, List.sum_cons, List.sum_nil]

/-- Witness for `variance_spec_ok` at concrete buffers. -/
theorem variance_spec_ok_witness :
    variance [7, 7, 7, 0] 1 4 1 = popVariance (effectiveSample [7, 7, 7, 0] 1 4) ∧
    variance (List.replicate (1 * 3) 128) 1 3 1 = 0 :=
  ⟨variance_spec_ok.1 [7, 7, 7, 0] 1 4 1 (by decide) (by decide) (by decide),
   variance_spec_ok.2.1 1 3 1 (by decide) (by decide) (by decide)⟩

/-- C9: the variance score never reads padding bytes — two buffers of
the same geometry agreeing on the first `width*3` bytes of every row
score identically, whatever their padding bytes hold. -/
theorem variance_ignores_padding (xs ys : List ℕ) (w s h : ℕ)
    (hw : 0 < w) (hws : w * 3 ≤ s)
    (hxlen : xs.length = h * s) (hylen : ys.length = h * s)
    (hagree : ∀ r < h,
      (xs.drop (r * s)).take (w * 3) = (ys.drop (r * s)).take (w * 3)) :
    variance xs w s h = variance ys w s h := by
  have hs : 0 < s := by omega
  rw [variance_eq_popVariance xs w s h hw hws hxlen,
    variance_eq_popVariance ys w s h hw hws hylen]
  congr 1
  rw [effectiveSample_eq xs w s h hs hws hxlen,
    effectiveSample_eq ys w s h hs hws hylen]
  congr 1
  apply List.map_congr_left
  intro r hr
  exact hagree r (List.mem_range.mp hr)

/-- Witness for `variance_ignores_padding`: two one-row buffers that
differ only in the padding byte score identically. -/
theorem variance_ignores_padding_witness :
    variance [1, 2, 3, 9] 1 4 1 = variance [1, 2, 3, 7] 1 4 1 :=
  variance_ignores_padding [1, 2, 3, 9] [1, 2, 3, 7] 1 4 1 (by decide) (by decide)
    (by decide) (by decide) (by decide)

/-- C4: de-striding yields exactly `height * width*3` bytes, whose row
`r` is the first `width*3` bytes of input row `r` (offset `r * stride`);
together the two parts pin every output byte to an input offset strictly
before the padding region of its row, so no padding byte can appear. -/
theorem destride_ok (xs : List ℕ) (w s h : ℕ)
    (hw : 0 < w) (hws : w * 3 ≤ s) (hlen : xs.length = h * s) :
    (destride xs w s h).length = h * (w * 3) ∧
    ∀ r < h, ((destride xs w s h).drop (r * (w * 3))).take (w * 3) =
      (xs.drop (r * s)).take (w * 3) := by
  have hs : 0 < s := by omega
  have hrows := chunksExact_of_length s hs h xs hlen
  have hcount : (chunksExact s xs).length = h := by rw [hrows]; simp
  have hD : destride xs w s h =
      ((List.range h).map (fun r => (xs.drop (r * s)).take (w * 3))).flatten := by
    simp only [destride]
    rw [hcount, Nat.sub_self, Nat.zero_mul, List.replicate_zero, List.append_nil]
    rw [List.take_of_length_le (le_of_eq hcount), hrows, List.map_map]
    congr 1
    apply List.map_congr_left
    intro r _
    show ((xs.drop (r * s)).take s).take (w * 3) = (xs.drop (r * s)).take (w * 3)
    rw [List.take_take, min_eq_left hws]
  constructor
  · rw [hD, flatten_length_of_uniform _ (w * 3) (rows_uniform xs w s h hws hlen)]
    simp
  · intro r hr
    rw [hD,
      flatten_drop_take (w * 3) _ (rows_uniform xs w s h hws hlen) r (by simpa using hr)]
    rw [List.getD_eq_getElem?_getD, List.getElem?_map, List.getElem?_range hr]
    rfl

/-- Witness for `destride_ok` on a two-row buffer with one padding byte
per row. -/
theorem destride_ok_witness :
    (destride [1, 2, 3, 9, 4, 5, 6, 8] 1 4 2).length = 2 * (1 * 3) ∧
    ((destride [1, 2, 3, 9, 4, 5, 6, 8] 1 4 2).drop (1 * (1 * 3))).take (1 * 3) =
      (([1, 2, 3, 9, 4, 5, 6, 8] : List ℕ).drop (1 * 4)).take (1 * 3) :=
  ⟨(destride_ok [1, 2, 3, 9, 4, 5, 6, 8] 1 4 2 (by decide) (by decide) (by decide)).1,
   (destride_ok [1, 2, 3, 9, 4, 5, 6, 8] 1 4 2 (by decide) (by decide) (by decide)).2
     1 (by decide)⟩

end GstThumbnailers
